import Mathlib

set_option linter.unusedVariables false

/-!
Shallow embedding of the stelace-util-keys package (`src/generator.js`,
`src/apiKey.js`, and the previous-generation api-key module kept at the
package root), together with proofs of behavioural claims about it.

JavaScript strings are modelled as `List Char`.  The JavaScript numbers
appearing in these code paths are integers or `NaN`, so they are modelled
as `Option Int` with `none` playing the role of `NaN`.
-/

namespace StelaceKeys

/-- JavaScript strings, modelled as their list of characters. -/
abbrev Str := List Char

/-- Two characters with the same code point are equal. -/
theorem char_eq_of_toNat_eq {c d : Char} (h : c.toNat = d.toNat) : c = d := by
  have hv : c.val = d.val := by
    apply UInt32.eq_of_toBitVec_eq
    apply BitVec.eq_of_toNat_eq
    exact h
  exact Char.eq_of_val_eq hv

/-! ### The base-62 alphabet

`Modelled from the spec:` the base62 codec is the npm `base62/lib/custom`
dependency, not part of this repository's sources.  Per spec section 4.1 it
encodes and decodes non-negative integers over the fixed 62-character
alphabet `0-9A-Za-z` (which `src/generator.js` passes as `base62Chars`),
by ordinary positional numerals.  `charIdx?` is the alphabet index of a
character (`indexCharset`), expressed through code points: positions 0-9
are `'0'..'9'` (codes 48-57), 10-35 are `'A'..'Z'` (codes 65-90), 36-61
are `'a'..'z'` (codes 97-122). -/
def charIdx? (c : Char) : Option Nat :=
  if 48 ≤ c.toNat ∧ c.toNat ≤ 57 then some (c.toNat - 48)
  else if 65 ≤ c.toNat ∧ c.toNat ≤ 90 then some (c.toNat - 55)
  else if 97 ≤ c.toNat ∧ c.toNat ≤ 122 then some (c.toNat - 61)
  else none

/-- The 62-character alphabet constant of `src/generator.js` (`base62Chars`). -/
def base62Chars : Str := "0123456789ABCDEFGHIJKLMNOPQRSTUVWXYZabcdefghijklmnopqrstuvwxyz".data

/-- The character for alphabet position `d` (`base62Chars[d]` for `d < 62`),
expressed through code points. -/
def b62digitChar (d : Nat) : Char :=
  Char.ofNat (if d < 10 then 48 + d else if d < 36 then 55 + d else 61 + d)

/-- The regex character class `[a-zA-Z0-9]` used by
`extractEncodedMarketplaceId`; these are exactly the alphabet characters. -/
def isAlnumAscii (c : Char) : Bool :=
  decide ((48 ≤ c.toNat ∧ c.toNat ≤ 57) ∨ (65 ≤ c.toNat ∧ c.toNat ≤ 90) ∨
    (97 ≤ c.toNat ∧ c.toNat ≤ 122))

theorem b62digitChar_spec : ∀ d, d < 62 → base62Chars.get? d = some (b62digitChar d) := by
  decide

theorem charIdx?_b62digitChar : ∀ d, d < 62 → charIdx? (b62digitChar d) = some d := by
  decide

theorem charIdx?_eq_some_iff {c : Char} {d : Nat} :
    charIdx? c = some d ↔
      (48 ≤ c.toNat ∧ c.toNat ≤ 57 ∧ d = c.toNat - 48) ∨
      (65 ≤ c.toNat ∧ c.toNat ≤ 90 ∧ d = c.toNat - 55) ∨
      (97 ≤ c.toNat ∧ c.toNat ≤ 122 ∧ d = c.toNat - 61) := by
  unfold charIdx?
  split_ifs with h1 h2 h3 <;> simp <;> omega

theorem charIdx?_lt {c : Char} {d : Nat} (h : charIdx? c = some d) : d < 62 := by
  rcases charIdx?_eq_some_iff.mp h with h' | h' | h' <;> omega

theorem isAlnumAscii_iff_charIdx {c : Char} :
    isAlnumAscii c = true ↔ (charIdx? c).isSome = true := by
  unfold isAlnumAscii charIdx?
  by_cases h1 : 48 ≤ c.toNat ∧ c.toNat ≤ 57
  · simp [h1]
  · by_cases h2 : 65 ≤ c.toNat ∧ c.toNat ≤ 90
    · simp [h1, h2]
    · by_cases h3 : 97 ≤ c.toNat ∧ c.toNat ≤ 122
      · simp [h1, h2, h3]
      · simp [h1, h2, h3]

theorem charIdx?_mono {c d : Char} {i j : Nat}
    (hc : charIdx? c = some i) (hd : charIdx? d = some j) :
    c.toNat < d.toNat ↔ i < j := by
  rcases charIdx?_eq_some_iff.mp hc with h1 | h1 | h1 <;>
    rcases charIdx?_eq_some_iff.mp hd with h2 | h2 | h2 <;> omega

theorem charIdx?_inj {c d : Char} {i : Nat}
    (hc : charIdx? c = some i) (hd : charIdx? d = some i) : c = d := by
  apply char_eq_of_toNat_eq
  have h1 := charIdx?_mono hc hd
  have h2 := charIdx?_mono hd hc
  omega

/-! ### Positional numerals

The base62 npm dependency and JavaScript's own decimal `toString` and
`parseInt` are all positional-numeral loops; they are modelled once here,
generically in the base `b`, the digit-to-char map and the char-to-digit
map. -/

section PositionalNumeral

variable (b : Nat) (digit : Nat → Char) (val : Char → Option Nat)

/-- Most-significant-first digit rendering of `n`, with explicit recursion
fuel (any `fuel ≥ n` gives the same output; `natCore b digit n n` is the
canonical call).  This is the `while (int > 0)` loop of the base62
package's `encode`, and of JavaScript's decimal rendering; it returns `[]`
for `n = 0`. -/
def natCore : Nat → Nat → Str
  | 0, _ => []
  | fuel + 1, n => if n = 0 then [] else natCore fuel (n / b) ++ [digit (n % b)]

/-- Horner evaluation of a digit string starting from accumulator `a`;
`none` models the `NaN` JavaScript produces when a character is outside
the digit alphabet.  This is the loop of the base62 package's `decode`. -/
def foldValFrom (a : Nat) (s : Str) : Option Nat :=
  s.foldl (fun acc c =>
    match acc, val c with
    | some x, some d => some (x * b + d)
    | _, _ => none) (some a)

theorem foldValFrom_nil (a : Nat) : foldValFrom b val a [] = some a := rfl

theorem foldValFrom_none (s : Str) :
    s.foldl (fun acc c =>
      match acc, val c with
      | some x, some d => some (x * b + d)
      | _, _ => none) (none : Option Nat) = none := by
  induction s with
  | nil => rfl
  | cons c t ih =>
      simp only [List.foldl_cons]
      rcases h : val c with _ | d <;> simpa [h] using ih

theorem foldValFrom_cons (a : Nat) (c : Char) (s : Str) :
    foldValFrom b val a (c :: s) =
      match val c with
      | some d => foldValFrom b val (a * b + d) s
      | none => none := by
  rcases h : val c with _ | d
  · simpa [foldValFrom, h] using foldValFrom_none b val s
  · simp [foldValFrom, h]

theorem foldValFrom_append (a : Nat) (s t : Str) :
    foldValFrom b val a (s ++ t) =
      match foldValFrom b val a s with
      | some x => foldValFrom b val x t
      | none => none := by
  rcases h : foldValFrom b val a s with _ | x
  · simpa [foldValFrom, List.foldl_append, foldValFrom] using by
      rw [foldValFrom] at h
      simp only [List.foldl_append, h]
      exact foldValFrom_none b val t
  · rw [foldValFrom] at h ⊢
    simp only [List.foldl_append, h]
    rfl

theorem natCore_zero (fuel : Nat) : natCore b digit fuel 0 = [] := by
  cases fuel <;> rfl

theorem natCore_decode (hdv : ∀ d, d < b → val (digit d) = some d) (hb : 2 ≤ b) :
    ∀ fuel n, n ≤ fuel → foldValFrom b val 0 (natCore b digit fuel n) = some n := by
  intro fuel
  induction fuel with
  | zero => intro n hn; interval_cases n; rfl
  | succ f ih =>
      intro n hn
      by_cases h0 : n = 0
      · subst h0; rw [natCore_zero]; rfl
      · have hdiv : n / b ≤ f := by
          have : n / b < n := Nat.div_lt_self (Nat.pos_of_ne_zero h0) (by omega)
          omega
        rw [natCore, if_neg h0, foldValFrom_append, ih (n / b) hdiv]
        show foldValFrom b val (n / b) [digit (n % b)] = some n
        rw [foldValFrom_cons, hdv (n % b) (Nat.mod_lt _ (by omega))]
        simp only [foldValFrom_nil, Option.some.injEq]
        rw [Nat.mul_comm]
        exact Nat.div_add_mod n b

theorem natCore_length (hb : 2 ≤ b) :
    ∀ k fuel n, n ≤ fuel → b ^ k ≤ n → n < b ^ (k + 1) →
      (natCore b digit fuel n).length = k + 1 := by
  intro k
  induction k with
  | zero =>
      intro fuel n hfuel hlo hhi
      have hlo1 : 1 ≤ n := by simpa using hlo
      have hhi1 : n < b := by simpa using hhi
      obtain ⟨f, rfl⟩ : ∃ f, fuel = f + 1 := ⟨fuel - 1, by omega⟩
      rw [natCore, if_neg (by omega), Nat.div_eq_of_lt hhi1, natCore_zero]
      rfl
  | succ k ih =>
      intro fuel n hfuel hlo hhi
      have hpos : 0 < n := lt_of_lt_of_le (pow_pos (by omega) _) hlo
      obtain ⟨f, rfl⟩ : ∃ f, fuel = f + 1 := ⟨fuel - 1, by omega⟩
      rw [natCore, if_neg (by omega)]
      have hdlo : b ^ k ≤ n / b := by
        rw [Nat.le_div_iff_mul_le (by omega)]
        calc b ^ k * b = b ^ (k + 1) := by ring
        _ ≤ n := hlo
      have hdhi : n / b < b ^ (k + 1) := by
        rw [Nat.div_lt_iff_lt_mul (by omega : 0 < b)]
        calc n < b ^ (k + 2) := hhi
        _ = b ^ (k + 1) * b := by ring
      have hdf : n / b ≤ f := by
        have : n / b < n := Nat.div_lt_self hpos (by omega)
        omega
      rw [List.length_append, ih f (n / b) hdf hdlo hdhi]
      rfl

theorem natCore_all (p : Char → Bool) (hp : ∀ d, d < b → p (digit d) = true)
    (hb : 2 ≤ b) :
    ∀ fuel n, (natCore b digit fuel n).all p = true := by
  intro fuel
  induction fuel with
  | zero => intro n; rfl
  | succ f ih =>
      intro n
      by_cases h0 : n = 0
      · subst h0; rw [natCore_zero]; rfl
      · rw [natCore, if_neg h0, List.all_append, ih (n / b)]
        simpa using hp (n % b) (Nat.mod_lt _ (by omega))

theorem foldValFrom_bounds (hvb : ∀ c d, val c = some d → d < b) (hb : 2 ≤ b) :
    ∀ (s : Str) (a x : Nat), foldValFrom b val a s = some x →
      a * b ^ s.length ≤ x ∧ x < (a + 1) * b ^ s.length := by
  intro s
  induction s with
  | nil =>
      intro a x h
      rw [foldValFrom_nil] at h
      cases h
      simp
  | cons c t ih =>
      intro a x h
      rw [foldValFrom_cons] at h
      rcases hv : val c with _ | d
      · rw [hv] at h; cases h
      · rw [hv] at h
        have hd := hvb c d hv
        obtain ⟨h1, h2⟩ := ih (a * b + d) x h
        have hpow : b ^ (c :: t).length = b ^ t.length * b := by
          rw [List.length_cons, pow_succ]
        constructor
        · have hmul : a * b * b ^ t.length ≤ (a * b + d) * b ^ t.length :=
            Nat.mul_le_mul_right _ (Nat.le_add_right _ _)
          calc a * b ^ (c :: t).length = a * b * b ^ t.length := by rw [hpow]; ring
          _ ≤ (a * b + d) * b ^ t.length := hmul
          _ ≤ x := h1
        · have hstep : a * b + d + 1 ≤ (a + 1) * b := by nlinarith
          have hmul : (a * b + d + 1) * b ^ t.length ≤ (a + 1) * b * b ^ t.length :=
            Nat.mul_le_mul_right _ hstep
          calc x < (a * b + d + 1) * b ^ t.length := h2
          _ ≤ (a + 1) * b * b ^ t.length := hmul
          _ = (a + 1) * b ^ (c :: t).length := by rw [hpow]; ring

theorem foldValFrom_isSome (s : Str) (a : Nat)
    (h : ∀ c ∈ s, (val c).isSome = true) :
    (foldValFrom b val a s).isSome = true := by
  induction s generalizing a with
  | nil => rfl
  | cons c t ih =>
      rw [foldValFrom_cons]
      rcases hv : val c with _ | d
      · exact absurd (h c (List.mem_cons_self c t)) (by simp [hv])
      · exact ih (a * b + d) fun x hx => h x (List.mem_cons_of_mem _ hx)

end PositionalNumeral

/-! ### The base-62 codec and JavaScript decimal numbers -/

/-- JavaScript numbers in these code paths are integers or `NaN`;
`none` models `NaN`. -/
abbrev JSNum := Option Int

/-- `Modelled from the spec:` positional base-62 rendering of a natural
number over `base62Chars` (the `while (int > 0)` loop of the base62
dependency's `encode`); empty for zero. -/
def b62encodeNat (n : Nat) : Str := natCore 62 b62digitChar n n

/-- `Modelled from the spec:` `decode` of the base62 dependency, Horner
evaluation of alphabet indices; `none` (JavaScript `NaN`) when a character
falls outside the alphabet. -/
def b62decode? (s : Str) : Option Nat := foldValFrom 62 charIdx? 0 s

/-- `Modelled from the spec:` the full `encode` of the base62 dependency on
a JavaScript number: `'0'` for zero, digit loop for positive integers, and
the loop never runs for `NaN` or negative input, giving the empty string. -/
def jsB62encode : JSNum → Str
  | none => []
  | some i => if i = 0 then ['0'] else if i < 0 then [] else b62encodeNat i.toNat

/-- `b62decode?` as a `JSNum` (the form the callers combine with integer
arithmetic). -/
def b62decodeNum (s : Str) : JSNum := (b62decode? s).map (fun n => (n : Int))

theorem b62decode?_encodeNat (n : Nat) : b62decode? (b62encodeNat n) = some n :=
  natCore_decode 62 b62digitChar charIdx? charIdx?_b62digitChar (by omega) n n le_rfl

theorem b62encodeNat_length {k n : Nat} (hlo : 62 ^ k ≤ n) (hhi : n < 62 ^ (k + 1)) :
    (b62encodeNat n).length = k + 1 :=
  natCore_length 62 b62digitChar (by omega) k n n le_rfl hlo hhi

theorem b62encodeNat_all (n : Nat) : (b62encodeNat n).all isAlnumAscii = true :=
  natCore_all 62 b62digitChar isAlnumAscii (by decide) (by omega) n n

theorem b62decode?_lt {s : Str} {x : Nat} (h : b62decode? s = some x) :
    x < 62 ^ s.length := by
  have := (foldValFrom_bounds 62 charIdx? (fun c d => charIdx?_lt) (by omega) s 0 x h).2
  simpa using this

theorem b62decode?_isSome {s : Str} (h : s.all isAlnumAscii = true) :
    (b62decode? s).isSome = true := by
  apply foldValFrom_isSome
  intro c hc
  exact isAlnumAscii_iff_charIdx.mp (by simpa using List.all_eq_true.mp h c hc)

/-- The character for decimal digit `d` (code point arithmetic). -/
def decDigitChar (d : Nat) : Char := Char.ofNat (48 + d)

/-- Decimal digit value of a character, if it is `'0'..'9'`. -/
def decDigit? (c : Char) : Option Nat :=
  if 48 ≤ c.toNat ∧ c.toNat ≤ 57 then some (c.toNat - 48) else none

/-- Test for `'0'..'9'`, the characters `parseInt` consumes in base 10. -/
def isDigitChar (c : Char) : Bool := decide (48 ≤ c.toNat ∧ c.toNat ≤ 57)

/-- JavaScript decimal rendering of a natural number. -/
def natToChars (n : Nat) : Str := if n = 0 then ['0'] else natCore 10 decDigitChar n n

/-- JavaScript string conversion of a number: `"NaN"` for `NaN`, decimal
rendering with a leading minus sign otherwise (how `.toString()` and
`'' + x` behave on the integers of these code paths). -/
def jsNumToString : JSNum → Str
  | none => "NaN".data
  | some i => if i < 0 then '-' :: natToChars (-i).toNat else natToChars i.toNat

/-- Leading run of decimal digits evaluated as a number; `none` when there
is no leading digit. -/
def parseDigits? (s : Str) : Option Nat :=
  let ds := s.takeWhile isDigitChar
  if ds.isEmpty then none else foldValFrom 10 decDigit? 0 ds

/-- JavaScript `parseInt(s, 10)` restricted to the canonical strings these
code paths feed it: an optional minus sign followed by the longest digit
prefix; `none` models `NaN`. -/
def parseIntJS : Str → JSNum
  | [] => none
  | c :: rest =>
      if c = '-' then (parseDigits? rest).map (fun n => -(n : Int))
      else (parseDigits? (c :: rest)).map (fun n => (n : Int))

theorem natToChars_all (n : Nat) : (natToChars n).all isDigitChar = true := by
  unfold natToChars
  split
  · decide
  · exact natCore_all 10 decDigitChar isDigitChar (by decide) (by omega) n n

theorem natCore_ne_nil {b : Nat} (digit : Nat → Char) {fuel n : Nat}
    (h0 : n ≠ 0) (hf : n ≤ fuel) : natCore b digit fuel n ≠ [] := by
  obtain ⟨f, rfl⟩ : ∃ f, fuel = f + 1 := ⟨fuel - 1, by omega⟩
  rw [natCore, if_neg h0]
  simp

theorem natToChars_ne_nil (n : Nat) : natToChars n ≠ [] := by
  unfold natToChars
  split
  · simp
  · exact natCore_ne_nil decDigitChar (by assumption) le_rfl

theorem parseDigits?_natToChars (n : Nat) : parseDigits? (natToChars n) = some n := by
  have hall : ∀ c ∈ natToChars n, isDigitChar c = true :=
    List.all_eq_true.mp (natToChars_all n)
  unfold parseDigits?
  rw [List.takeWhile_eq_self_iff.mpr hall]
  rw [if_neg (by simpa using natToChars_ne_nil n)]
  unfold natToChars
  split
  · subst n; decide
  · exact natCore_decode 10 decDigitChar decDigit? (by decide) (by omega) n n le_rfl

theorem isDigitChar_ne_minus {c : Char} (h : isDigitChar c = true) : c ≠ '-' := by
  intro he
  subst he
  exact absurd h (by decide)

theorem parseIntJS_natToChars (n : Nat) : parseIntJS (natToChars n) = some (n : Int) := by
  rcases hs : natToChars n with _ | ⟨c, t⟩
  · exact absurd hs (natToChars_ne_nil n)
  · have hc : isDigitChar c = true := by
      have := natToChars_all n
      rw [hs] at this
      simpa using (List.all_eq_true.mp this c (List.mem_cons_self c t))
    rw [parseIntJS, if_neg (by simpa using isDigitChar_ne_minus hc), ← hs,
      parseDigits?_natToChars]
    rfl

/-- `String.prototype.toLowerCase` on the ASCII characters these tokens
contain. -/
def asciiLower (c : Char) : Char :=
  if 65 ≤ c.toNat ∧ c.toNat ≤ 90 then Char.ofNat (c.toNat + 32) else c

/-- `String.prototype.toUpperCase` on the ASCII characters these tokens
contain. -/
def asciiUpper (c : Char) : Char :=
  if 97 ≤ c.toNat ∧ c.toNat ≤ 122 then Char.ofNat (c.toNat - 32) else c

/-- Index clamping of `String.prototype.substring`: negative indices become
0, overlong ones become the length. -/
def substringIdx (len : Nat) (i : Int) : Nat := (min (max i 0) len).toNat

/-- `s.substring(a, b)`; the two indices are clamped and swapped into
order. -/
def jsSubstring (s : Str) (a bnd : Int) : Str :=
  (s.take (max (substringIdx s.length a) (substringIdx s.length bnd))).drop
    (min (substringIdx s.length a) (substringIdx s.length bnd))

/-- Index normalisation of `String.prototype.slice`: negative indices count
from the end of the string. -/
def sliceIdx (len : Nat) (i : Int) : Nat :=
  if i < 0 then (max (i + len) 0).toNat else (min i len).toNat

/-- `s.slice(a, b)`. -/
def jsSlice (s : Str) (a bnd : Int) : Str :=
  (s.take (sliceIdx s.length bnd)).drop (sliceIdx s.length a)

/-- `s.slice(a)`, the one-argument form. -/
def jsSliceFrom (s : Str) (a : Int) : Str := jsSlice s a s.length

/-- `s.charAt(i)`: a one-character string, or the empty string out of
bounds. -/
def jsCharAt (s : Str) (i : Nat) : Str := (s.drop i).take 1

/-- String truthiness: only the empty string is falsy. -/
def jsTruthy (s : Str) : Bool := !s.isEmpty

/-- Truthiness of a possibly-undefined string. -/
def jsTruthyOpt : Option Str → Bool
  | none => false
  | some s => jsTruthy s

theorem take_min_length (l : Str) (m : Nat) : l.take (min m l.length) = l.take m := by
  rcases le_or_lt m l.length with h | h
  · rw [Nat.min_eq_left h]
  · rw [Nat.min_eq_right (le_of_lt h), List.take_length, List.take_of_length_le (le_of_lt h)]

theorem drop_min_length (l : Str) (m : Nat) : l.drop (min m l.length) = l.drop m := by
  rcases le_or_lt m l.length with h | h
  · rw [Nat.min_eq_left h]
  · rw [Nat.min_eq_right (le_of_lt h), List.drop_length, List.drop_eq_nil_of_le (le_of_lt h)]

theorem substringIdx_cast (len m : Nat) : substringIdx len (m : Int) = min m len := by
  unfold substringIdx
  omega

theorem sliceIdx_cast (len m : Nat) : sliceIdx len (m : Int) = min m len := by
  unfold sliceIdx
  rw [if_neg (by omega)]
  omega

theorem sliceIdx_neg (len k : Nat) (hk : 0 < k) : sliceIdx len (-(k : Int)) = len - k := by
  unfold sliceIdx
  rw [if_pos (by omega)]
  omega

theorem jsSubstring_take (s : Str) (m : Nat) : jsSubstring s 0 (m : Int) = s.take m := by
  unfold jsSubstring
  have h0 : substringIdx s.length (0 : Int) = 0 := by unfold substringIdx; omega
  rw [h0, substringIdx_cast]
  have h1 : max 0 (min m s.length) = min m s.length := by omega
  have h2 : min 0 (min m s.length) = 0 := by omega
  rw [h1, h2, List.drop_zero, take_min_length]

theorem jsSubstring_drop (s : Str) (m : Nat) :
    jsSubstring s (m : Int) (s.length : Int) = s.drop m := by
  unfold jsSubstring
  rw [substringIdx_cast, substringIdx_cast]
  have h1 : max (min m s.length) (min s.length s.length) = s.length := by omega
  have h2 : min (min m s.length) (min s.length s.length) = min m s.length := by omega
  rw [h1, h2, List.take_length, drop_min_length]

theorem jsSlice_append (P Q : Str) (m : Nat) :
    jsSlice (P ++ Q) (P.length : Int) ((P.length : Int) + m) = Q.take m := by
  unfold jsSlice
  have hcast : ((P.length : Int) + m) = ((P.length + m : Nat) : Int) := by push_cast; ring
  rw [hcast, sliceIdx_cast, sliceIdx_cast, List.length_append]
  have hx : min P.length (P.length + Q.length) = P.length := by omega
  have hy : min (P.length + m) (P.length + Q.length) = P.length + min m Q.length := by omega
  rw [hx, hy, List.take_append, take_min_length]
  exact List.drop_left P (Q.take m)

theorem jsSliceFrom_neg (s : Str) (k : Nat) (hk0 : 0 < k) :
    jsSliceFrom s (-(k : Int)) = s.drop (s.length - k) := by
  unfold jsSliceFrom jsSlice
  rw [sliceIdx_cast, sliceIdx_neg _ _ hk0]
  have hy : min s.length s.length = s.length := by omega
  rw [hy, List.take_length]

theorem jsCharAt_append (P Q : Str) : jsCharAt (P ++ Q) P.length = Q.take 1 := by
  unfold jsCharAt
  rw [List.drop_left]

theorem jsSliceFrom_neg_append (A B : Str) (k : Nat) (hk0 : 0 < k) (hk : k ≤ B.length) :
    jsSliceFrom (A ++ B) (-(k : Int)) = B.drop (B.length - k) := by
  rw [jsSliceFrom_neg _ _ hk0, List.length_append]
  have h : A.length + B.length - k = A.length + (B.length - k) := by omega
  rw [h, List.drop_append]

/-- Decidable equality of `Except` results, for evaluating the model at
concrete inputs. -/
instance exceptDecEq {ε α : Type} [DecidableEq ε] [DecidableEq α] :
    DecidableEq (Except ε α)
  | Except.error e, Except.error f =>
      if h : e = f then Decidable.isTrue (by rw [h])
      else Decidable.isFalse (by intro he; cases he; exact h rfl)
  | Except.error _, Except.ok _ => Decidable.isFalse (by intro h; cases h)
  | Except.ok _, Except.error _ => Decidable.isFalse (by intro h; cases h)
  | Except.ok a, Except.ok c =>
      if h : a = c then Decidable.isTrue (by rw [h])
      else Decidable.isFalse (by intro he; cases he; exact h rfl)

/-- Arithmetic on possibly-`NaN` JavaScript numbers: addition. -/
def jsAdd : JSNum → JSNum → JSNum
  | some a, some c => some (a + c)
  | _, _ => none

/-- Arithmetic on possibly-`NaN` JavaScript numbers: subtraction. -/
def jsSub : JSNum → JSNum → JSNum
  | some a, some c => some (a - c)
  | _, _ => none

/-- The comparison `x > n` for a JavaScript number `x` and integer bound
`n`; any comparison with `NaN` is false. -/
def jsGtNat (x : JSNum) (n : Nat) : Bool :=
  match x with
  | some a => decide ((n : Int) < a)
  | none => false

/-! ### `src/generator.js` -/

/-- The default `separator` option (`'_'`). -/
def defaultSeparator : Str := ['_']

/-- `marketplaceZones` of `src/generator.js`: lowercase single-char zones. -/
def marketplaceZones : List Char := ['e', 's']

/-- `encodedMarketplaceIdStringLength`. -/
def encodedMarketplaceIdStringLength : Nat := 4

/-- `marketplacePartLength`: the encoded id plus the zone character. -/
def marketplacePartLength : Nat := encodedMarketplaceIdStringLength + 1

/-- `marketplaceIdBase = Math.pow(62, 3) - 1`. -/
def marketplaceIdBase : Nat := 62 ^ 3 - 1

/-- `maxMarketplaceId = Math.pow(62, 4) - 1 - base62.decode('zzz') -
marketplaceIdBase`; `base62.decode('zzz') = 238327`, see
`b62decode?_zzz`. -/
def maxMarketplaceId : Nat := 62 ^ 4 - 1 - 238327 - marketplaceIdBase

theorem b62decode?_zzz : b62decode? ['z', 'z', 'z'] = some 238327 := by decide

theorem maxMarketplaceId_eq : maxMarketplaceId = 14299681 := by decide

/-- `objectIdLength`. -/
def objectIdLength : Nat := 24

/-- `objectIdTimestampLength`. -/
def objectIdTimestampLength : Nat := 6

/-- The substitution `getRandomString` applies to the base64 rendering:
`+` and `/` become `0`. -/
def base64Replace (c : Char) : Char := if c = '+' ∨ c = '/' then '0' else c

/-- Characters `buffer.toString('base64')` can produce ahead of its
padding. -/
def isBase64Char (c : Char) : Bool := isAlnumAscii c || c = '+' || c = '/'

/-- `getCharsNeededAfterPrefix` of `src/generator.js` (`pfx` models the
`prefix` option). -/
def getCharsNeededAfterPrefix (length : Int) ( pfx separator : Str) : Int :=
  if pfx ≠ [] then length - pfx.length - separator.length else length

/-- `getRandomString` of `src/generator.js`.  The external crypto byte
source is abstracted by `oracle`, the base64 rendering of the drawn
buffer; the function truncates it to `charsNeeded` characters and replaces
`+` and `/` by `0`.  The unused substitution hook (`replaceRegex` /
`replacement`), exercised by no caller inside the package and by no claim,
is not modelled, and the `typeof` checks on the options are vacuous in a
typed model.  In the source the defaults are `prefix = ''` and
`separator = '_'`; callers here pass them explicitly. -/
def getRandomString (length : Int) ( pfx separator : Str) (oracle : Str) : Str :=
  let charsNeeded := getCharsNeededAfterPrefix length pfx separator
  let randomString := if pfx ≠ [] then pfx ++ separator else []
  if charsNeeded ≤ 0 then randomString
  else randomString ++ (jsSlice oracle 0 charsNeeded).map base64Replace

/-- `encodeMarketplaceId` of `src/generator.js`.  In the source the
defaults are `shuffler = '000'` and
`length = encodedMarketplaceIdStringLength`; callers here pass them
explicitly.  `!marketplaceIdInt` is number falsiness: `NaN` or zero. -/
def encodeMarketplaceId (marketplaceId : Str) (shuffler : Str) (length : Nat) :
    Except String Str :=
  let marketplaceIdInt := parseIntJS marketplaceId
  let hasDefaultLength := length = encodedMarketplaceIdStringLength
  if marketplaceIdInt = none ∨ marketplaceIdInt = some 0 ∨
      (hasDefaultLength ∧ jsGtNat marketplaceIdInt maxMarketplaceId = true) then
    Except.error "Expect marketplaceId to be a number in range"
  else
    Except.ok (jsB62encode (jsAdd (jsAdd marketplaceIdInt (some (marketplaceIdBase : Int)))
      (b62decodeNum shuffler)))

/-- `formatMarketplaceZone` of `src/generator.js` (the `typeof env` check
is vacuous in a typed model). -/
def formatMarketplaceZone (env zone : Str) : Str :=
  if env = "live".data then zone.map asciiUpper else zone

/-- `isLiveObjectId`: a zone string is live when it equals its own
uppercasing. -/
def isLiveObjectId (zone : Str) : Bool := decide (zone = zone.map asciiUpper)

/-- The character class `[es]` of `extractMarketplaceIdRegex` under the
`i` flag (`marketplaceZones.join('')`). -/
def isZoneCharI (c : Char) : Bool := c = 'e' || c = 'E' || c = 's' || c = 'S'

/-- First match of `extractMarketplaceIdRegex` =
`new RegExp(`${zone ? '[es]' : ''}([a-zA-Z0-9]+)`, 'i')`: scanning left to
right, with `withZone` the match needs a zone character followed by at
least one alphanumeric character and captures the maximal alphanumeric run
after the zone character; without it the capture is the first maximal
alphanumeric run itself.  Returns the captured group (`matches[1]`). -/
def regexCapture (withZone : Bool) : Str → Option Str
  | [] => none
  | c :: t =>
      if withZone then
        if isZoneCharI c && !(t.takeWhile isAlnumAscii).isEmpty then
          some (t.takeWhile isAlnumAscii)
        else regexCapture withZone t
      else
        if isAlnumAscii c then some (c :: t.takeWhile isAlnumAscii)
        else regexCapture withZone t

/-- `extractEncodedMarketplaceId` of `src/generator.js`.  In the source
the defaults are `shuffler = '000'` and `zone = marketplaceZones[0]`;
callers here pass them explicitly.  Note the `!marketplaceId` test is on
the *string* produced by `.toString()`, which is never empty — faithful to
the source, where that guard can likewise never fire. -/
def extractEncodedMarketplaceId (encodedString : Str) (shuffler : Str) (zone : Str) :
    Except String Str :=
  match regexCapture (!zone.isEmpty) encodedString with
  | none => Except.error "Cant extract marketplaceId"
  | some captured =>
      let arrangeInt := jsAdd (b62decodeNum shuffler) (some (marketplaceIdBase : Int))
      let marketplaceId := jsNumToString (jsSub (b62decodeNum captured) arrangeInt)
      if marketplaceId = [] ∨ jsGtNat (parseIntJS marketplaceId) maxMarketplaceId = true then
        Except.error "Invalid marketplaceId"
      else Except.ok marketplaceId

/-- `getRandomCharsNeededInObjectId` of `src/generator.js`. -/
def getRandomCharsNeededInObjectId (baseString : Str) : Int :=
  (objectIdLength : Int) - baseString.length - marketplacePartLength - objectIdTimestampLength

/-- `getObjectId` of `src/generator.js`.  `oracle` abstracts the crypto
byte source (see `getRandomString`) and `now` is
`Math.round(Date.now() / 1000)`, the integer Unix seconds read from the
external clock.  The length guard
`objectIdLength <= (4 / 3) * (baseString.length + marketplacePartLength)`
is a comparison of exact integers against a rational multiple, stated here
multiplied out (`3 * objectIdLength ≤ 4 * (..)`); for the integer operands
that arise this coincides with the IEEE double evaluation the engine
performs.  In the source the defaults are `separator = '_'`,
`env = 'test'` and `marketplaceZone = marketplaceZones[0]`; callers here
pass them explicitly. -/
def getObjectId ( pfx separator marketplaceId env marketplaceZone : Str)
    (oracle : Str) (now : Nat) : Except String Str :=
  let baseString := if pfx ≠ [] then pfx ++ separator else []
  if 3 * objectIdLength ≤ 4 * (baseString.length + marketplacePartLength) then
    Except.error "Length should be high enough to pad ID with random characters"
  else
    let randomCharsNeeded := getRandomCharsNeededInObjectId baseString
    let randomChars := getRandomString randomCharsNeeded [] defaultSeparator oracle
    let base62Shuffler := jsSliceFrom randomChars (-3)
    match encodeMarketplaceId marketplaceId base62Shuffler encodedMarketplaceIdStringLength with
    | Except.error e => Except.error e
    | Except.ok encodedMarketplaceId =>
        let zone := formatMarketplaceZone env marketplaceZone
        let encodedSecondsSinceEpoch := jsB62encode (jsAdd (some (now : Int))
          (b62decodeNum (base62Shuffler ++ ['0'])))
        Except.ok (baseString ++
          jsSubstring randomChars 0 ((randomChars.length : Int) - 3) ++
          zone ++ encodedMarketplaceId ++ encodedSecondsSinceEpoch ++ base62Shuffler)

/-- `extractTimestampFromObjectId` of `src/generator.js`. -/
def extractTimestampFromObjectId (objectId shuffler : Str) : JSNum :=
  jsSub
    (b62decodeNum (jsSlice objectId
      (-((objectIdTimestampLength : Int) + shuffler.length)) (-(shuffler.length : Int))))
    (b62decodeNum (shuffler ++ ['0']))

/-- The record `extractDataFromObjectId` returns. -/
structure ObjectIdData where
  object : Str
  marketplaceId : Str
  zone : Str
  isLive : Bool
  timestamp : JSNum
deriving DecidableEq

/-- `extractDataFromObjectId` of `src/generator.js`.  `marketplaceIdPart[0]`
is modelled as the one-character string `take 1` (after a successful
extraction the part is provably non-empty). -/
def extractDataFromObjectId (objectId : Str) : Except String ObjectIdData :=
  let splitObjectId := List.splitOn '_' objectId
  let object := splitObjectId.headD []
  let baseString := object ++ defaultSeparator
  let randomCharsLength := getRandomCharsNeededInObjectId baseString - 3
  let encodedString := splitObjectId.getLastD []
  let marketplaceIdPart :=
    jsSlice encodedString randomCharsLength (randomCharsLength + marketplacePartLength)
  let shuffler := jsSliceFrom objectId (-3)
  match extractEncodedMarketplaceId marketplaceIdPart shuffler ['e'] with
  | Except.error e => Except.error e
  | Except.ok marketplaceId =>
      let zone := marketplaceIdPart.take 1
      Except.ok ⟨object, marketplaceId, zone, isLiveObjectId zone,
        extractTimestampFromObjectId objectId shuffler⟩

/-! ### `src/apiKey.js` -/

/-- `listTypes` of `src/apiKey.js`: the built-in two-char type codes. -/
def listTypes : List Str := [['s', 'k'], ['p', 'k'], ['c', 'k']]

/-- `marketplaceZone = marketplaceZones[0]`, the module-level default. -/
def marketplaceZone : Str := ['e']

/-- `marketplacePartIndex`. -/
def marketplacePartIndex : Nat := 20

/-- `keyLength` (excludes the `type_env_` prefix). -/
def keyLength : Nat := 32

/-- `typeMaxLength`. -/
def typeMaxLength : Nat := 10

/-- The test of `customTypeRegex = /^[a-z\d]{3,10}$/i`: alphanumeric,
length 3 to `typeMaxLength`. -/
def customTypeRegexTest (t : Str) : Bool :=
  decide (3 ≤ t.length) && decide (t.length ≤ typeMaxLength) && t.all isAlnumAscii

/-- `validateKeyType` of `src/apiKey.js` (`!type` is string falsiness;
the `typeof` check is vacuous in a typed model). -/
def validateKeyType (type : Str) : Except String Str :=
  if type = [] then Except.error "ApiKey type is expected to be a string"
  else if type.length ≤ 2 ∧ type ∉ listTypes then Except.error "Invalid ApiKey type"
  else if 2 < type.length ∧ customTypeRegexTest type = false then
    Except.error "Custom ApiKey type must match customTypeRegex"
  else Except.ok type

/-- `generateKey` of `src/apiKey.js`.  `oracle` abstracts the crypto byte
source (see `getRandomString`).  In the source the default is
`zone = marketplaceZone`; callers here pass it explicitly. -/
def generateKey (type env marketplaceId zone : Str) (oracle : Str) : Except String Str :=
  match validateKeyType type with
  | Except.error e => Except.error e
  | Except.ok validType =>
  if marketplaceId ≠ jsNumToString (parseIntJS marketplaceId) then
    Except.error "Marketplace id is expected to be a string integer"
  else
    let baseString := jsSubstring validType 0 (typeMaxLength : Int) ++ ['_'] ++ env ++ ['_']
    let randomCharsNeeded : Int := (keyLength : Int) - marketplacePartLength
    let randomString := getRandomString randomCharsNeeded [] defaultSeparator oracle
    match encodeMarketplaceId marketplaceId (jsSliceFrom randomString (-3))
        encodedMarketplaceIdStringLength with
    | Except.error e => Except.error e
    | Except.ok encodedMarketplaceId =>
        let marketplaceString := formatMarketplaceZone env zone ++ encodedMarketplaceId
        let breakRandomStringIndex : Int := (marketplacePartIndex : Int) - baseString.length
        Except.ok (baseString ++
          jsSubstring randomString 0 breakRandomStringIndex ++
          marketplaceString ++
          jsSubstring randomString breakRandomStringIndex (randomString.length : Int))

/-- The object `parseKey` returns.  Fields the JavaScript code can leave
`undefined` are `Option`s; in the short-circuit branch every field except
`hasValidFormat` is absent. -/
structure ParseResult where
  type : Option Str
  env : Option Str
  marketplaceId : Option Str
  zone : Option Str
  hasValidFormat : Bool
deriving DecidableEq

/-- `parseKey` of `src/apiKey.js`.  The `try { type = validateKeyType(type);
marketplaceId = extractEncodedMarketplaceId(..) } catch (e) {}` block is
modelled by matching on the two `Except` results: a failure of either one
leaves `marketplaceId` undefined and never escapes (and since
`validateKeyType` returns its argument unchanged, the returned `type` is
`parts[0]` in every branch, as in the source).  `hasValidFormat` is
`[type, env, marketplaceId, zone].every(i => !!i)`. -/
def parseKey (key : Str) : ParseResult :=
  let parts := List.splitOn '_' key
  if parts.length ≠ 3 then ⟨none, none, none, none, false⟩
  else
    let type := parts.getD 0 []
    let env := parts.getD 1 []
    let randomString := parts.getD 2 []
    let zone := (jsCharAt key marketplacePartIndex).map asciiLower
    let encodedMarketplaceId :=
      jsSlice key (marketplacePartIndex : Int) ((marketplacePartIndex : Int) + marketplacePartLength)
    let shuffler := jsSliceFrom randomString (-3)
    let marketplaceId : Option Str :=
      match validateKeyType type with
      | Except.error _ => none
      | Except.ok _ =>
          match extractEncodedMarketplaceId encodedMarketplaceId shuffler marketplaceZone with
          | Except.error _ => none
          | Except.ok m => some m
    let hasValidFormat :=
      jsTruthy type && jsTruthy env && jsTruthyOpt marketplaceId && jsTruthy zone
    ⟨some type, some env, marketplaceId, some zone, hasValidFormat⟩

/-! ### The previous-generation api-key module (package root `index.js`) -/

namespace Legacy

/-- `listTypes` of the legacy module: only `sk` and `pk`. -/
def listTypes : List Str := [['s', 'k'], ['p', 'k']]

/-- Legacy `keyLength`: the *total* key length, prefix included. -/
def keyLength : Nat := 32

/-- `generateKey` of the legacy module: same layout machinery, but the
random payload is shortened by the `type_env_` prefix so the whole key is
32 characters, and only the built-in 2-char types are allowed. -/
def generateKey (type env marketplaceId zone : Str) (oracle : Str) : Except String Str :=
  if type ∉ listTypes then Except.error "Invalid type"
  else if marketplaceId ≠ jsNumToString (parseIntJS marketplaceId) then
    Except.error "Marketplace id is expected to be a string integer"
  else
    let baseString := type ++ ['_'] ++ env ++ ['_']
    let randomCharsNeeded : Int :=
      (keyLength : Int) - marketplacePartLength - baseString.length
    let randomString := getRandomString randomCharsNeeded [] defaultSeparator oracle
    match encodeMarketplaceId marketplaceId (jsSliceFrom randomString (-3))
        encodedMarketplaceIdStringLength with
    | Except.error e => Except.error e
    | Except.ok encodedMarketplaceId =>
        let marketplaceString := formatMarketplaceZone env zone ++ encodedMarketplaceId
        let breakRandomStringIndex : Int := (marketplacePartIndex : Int) - baseString.length
        Except.ok (baseString ++
          jsSubstring randomString 0 breakRandomStringIndex ++
          marketplaceString ++
          jsSubstring randomString breakRandomStringIndex (randomString.length : Int))

end Legacy

/-! ### Claims -/

/-- C9: for every non-empty prefix, every separator, and every requested
length with `length - len(prefix) - len(separator) ≤ 0`, `getRandomString`
succeeds (in this embedding it is a total function: the `typeof` guards
are vacuous in a typed model and the substitution-hook guard cannot fire
when neither option is passed, as in the claim's call shape) and returns
exactly `prefix ++ separator`; the random byte source is never consulted:
the result equals `prefix ++ separator` for the given oracle and coincides
with the result under every other oracle, so it is independent of the
bytes the source would supply. -/
theorem C9_getRandomString_short_circuit (length : Int) ( pfx separator oracle : Str)
    (hp : pfx ≠ []) (hlen : length - pfx.length - separator.length ≤ 0) :
    getRandomString length pfx separator oracle = pfx ++ separator ∧
    ∀ oracle2 : Str, getRandomString length pfx separator oracle =
      getRandomString length pfx separator oracle2 := by
  have key : ∀ o : Str, getRandomString length pfx separator o = pfx ++ separator := by
    intro o
    unfold getRandomString getCharsNeededAfterPrefix
    simp only [if_pos hp]
    rw [if_pos hlen]
  exact ⟨key oracle, fun oracle2 => (key oracle).trans (key oracle2).symm⟩

theorem C9_witness :
    getRandomString 9 "9Char".data "LONG".data "AAAAAA".data = "9CharLONG".data ∧
    getRandomString 9 "9Char".data "LONG".data "AAAAAA".data =
      getRandomString 9 "9Char".data "LONG".data "zz".data :=
  ⟨(C9_getRandomString_short_circuit 9 "9Char".data "LONG".data "AAAAAA".data
      (by decide) (by decide)).1,
    (C9_getRandomString_short_circuit 9 "9Char".data "LONG".data "AAAAAA".data
      (by decide) (by decide)).2 "zz".data⟩

/-- C5 (code-bug evidence): at the forged key of the repository's own test
suite (`parseKey('pk_live_iuJzTKo5wumuE1imRjmcgimx')`, asserted there to
yield `hasValidFormat == false`), the masked block `E1imR` with shuffler
`imx` decodes to `-31 ≤ 0`, yet `extractEncodedMarketplaceId` returns the
string `'-31'` instead of failing — its `!marketplaceId` guard tests a
`.toString()` result that is never empty — and `parseKey` consequently
reports `hasValidFormat = true`;  a block decoding to exactly zero is
likewise returned as `'0'`. -/
theorem C5_extract_nonpositive_bug :
    extractEncodedMarketplaceId "E1imR".data "imx".data ['e'] = Except.ok "-31".data ∧
    parseKey "pk_live_iuJzTKo5wumuE1imRjmcgimx".data =
      ⟨some "pk".data, some "live".data, some "-31".data, some "e".data, true⟩ ∧
    extractEncodedMarketplaceId "ezzz".data "000".data ['e'] = Except.ok ['0'] :=
  ⟨by decide, by decide, by decide⟩

/-- C10: a concrete valid input on which generation succeeds but
extraction fails: the 10-character prefix `abcdefghij` with the default
separator passes the length guard of `getObjectId` — the guard reserves no
room for the 6-character timestamp block and the 3-character shuffler — so
only 2 random characters are drawn, the shuffler shrinks to 2 characters,
and `extractDataFromObjectId` fails on the generated id (its slice offsets
assume a 3-character shuffler). -/
theorem C10_guard_gap :
    getObjectId "abcdefghij".data "_".data ['1'] "test".data ['e'] "00".data (62 ^ 5) =
      Except.ok "abcdefghij_e100010000000".data ∧
    (extractDataFromObjectId "abcdefghij_e100010000000".data).isOk = false :=
  ⟨by decide, by decide⟩

/-- C3: `parseKey` is total — in this embedding it is a function returning
a `ParseResult` for every input string, and its two fallible
sub-computations (`validateKeyType` and `extractEncodedMarketplaceId`) are
caught locally.  When the key does not split on `'_'` into exactly 3
segments, the result is `hasValidFormat = false` with every other field
absent; when it does split, `type`, `env` and `zone` are always present,
and a failure of either guarded sub-computation only leaves
`marketplaceId` absent and forces `hasValidFormat = false`. -/
theorem C3_parseKey_total (key : Str) :
    ((List.splitOn '_' key).length ≠ 3 → parseKey key = ⟨none, none, none, none, false⟩) ∧
    ((List.splitOn '_' key).length = 3 →
      (parseKey key).type = some ((List.splitOn '_' key).getD 0 []) ∧
      (parseKey key).env = some ((List.splitOn '_' key).getD 1 []) ∧
      (parseKey key).zone = some ((jsCharAt key marketplacePartIndex).map asciiLower) ∧
      ((parseKey key).marketplaceId = none → (parseKey key).hasValidFormat = false)) := by
  constructor
  · intro h
    unfold parseKey
    rw [if_pos h]
  · intro h
    have hne : ¬ (List.splitOn '_' key).length ≠ 3 := by omega
    refine ⟨?_, ?_, ?_, ?_⟩
    · unfold parseKey
      rw [if_neg hne]
    · unfold parseKey
      rw [if_neg hne]
    · unfold parseKey
      rw [if_neg hne]
    · intro hm
      unfold parseKey at hm ⊢
      rw [if_neg hne] at hm ⊢
      dsimp only at hm ⊢
      rw [hm]
      simp [jsTruthyOpt]

theorem C3_witness : parseKey "x".data = ⟨none, none, none, none, false⟩ :=
  (C3_parseKey_total "x".data).1 (by decide)

/-- Strict ASCII-lexicographic order on strings — JavaScript string `<`
for the code points these tokens contain. -/
def jsStrLt (s t : Str) : Prop := List.Lex (fun c d : Char => c.toNat < d.toNat) s t

theorem lex_of_decode_lt :
    ∀ (s t : Str) (a x y : Nat), s.length = t.length →
      foldValFrom 62 charIdx? a s = some x → foldValFrom 62 charIdx? a t = some y →
      x < y → jsStrLt s t := by
  intro s
  induction s with
  | nil =>
      intro t a x y hlen hx hy hxy
      cases t with
      | nil =>
          rw [foldValFrom_nil] at hx hy
          cases hx; cases hy; omega
      | cons d t' => simp at hlen
  | cons c s' ih =>
      intro t a x y hlen hx hy hxy
      cases t with
      | nil => simp at hlen
      | cons d t' =>
          rw [foldValFrom_cons] at hx hy
          rcases hc : charIdx? c with _ | i
          · rw [hc] at hx; cases hx
          · rw [hc] at hx
            rcases hd : charIdx? d with _ | j
            · rw [hd] at hy; cases hy
            · rw [hd] at hy
              have hlen' : s'.length = t'.length := by simpa using hlen
              rcases Nat.lt_trichotomy i j with hij | hij | hij
              · exact List.Lex.rel ((charIdx?_mono hc hd).mpr hij)
              · subst hij
                have hcd : c = d := charIdx?_inj hc hd
                subst hcd
                exact List.Lex.cons (ih t' (a * 62 + i) x y hlen' hx hy hxy)
              · exfalso
                have hbx := (foldValFrom_bounds 62 charIdx? (fun c d => charIdx?_lt)
                  (by omega) s' (a * 62 + i) x hx).1
                have hby := (foldValFrom_bounds 62 charIdx? (fun c d => charIdx?_lt)
                  (by omega) t' (a * 62 + j) y hy).2
                rw [hlen'] at hbx
                have hle : a * 62 + j + 1 ≤ a * 62 + i := by omega
                have hmul : (a * 62 + j + 1) * 62 ^ t'.length ≤ (a * 62 + i) * 62 ^ t'.length :=
                  Nat.mul_le_mul_right _ hle
                omega

theorem b62decode?_jsB62encode (n : Nat) :
    b62decode? (jsB62encode (some (n : Int))) = some n := by
  by_cases h0 : n = 0
  · subst h0; decide
  · have henc : jsB62encode (some (n : Int)) = b62encodeNat n := by
      show (if (n : Int) = 0 then ['0'] else if (n : Int) < 0 then []
        else b62encodeNat (n : Int).toNat) = b62encodeNat n
      rw [if_neg (by omega), if_neg (by omega), Int.toNat_natCast]
    rw [henc]
    exact b62decode?_encodeNat n

/-- C6 (counterexample): the claim fails across encodings of different
lengths: 61 < 62, encode(61) = `'z'` and encode(62) = `'10'`, but `'z'` is
not ASCII-lexicographically smaller than `'10'`. -/
theorem C6_counterexample :
    61 < 62 ∧ jsB62encode (some 61) = ['z'] ∧ jsB62encode (some 62) = ['1', '0'] ∧
    ¬ jsStrLt (jsB62encode (some 61)) (jsB62encode (some 62)) := by
  refine ⟨by decide, by decide, by decide, ?_⟩
  intro hlex
  rw [(by decide : jsB62encode (some 61) = ['z']),
    (by decide : jsB62encode (some 62) = ['1', '0'])] at hlex
  cases hlex with
  | rel h => exact absurd h (by decide)

/-- C6 (amended): the base-62 encoding over the ASCII-sorted alphabet is
order-preserving among encodings of equal length: for naturals `a < c`
whose encodings have the same number of characters, `encode a` is strictly
ASCII-lexicographically smaller than `encode c` (callers obtain equal
lengths by the padding and offset arithmetic of the layouts). -/
theorem C6_base62_monotonic (a c : Nat) (hac : a < c)
    (hlen : (jsB62encode (some (a : Int))).length = (jsB62encode (some (c : Int))).length) :
    jsStrLt (jsB62encode (some (a : Int))) (jsB62encode (some (c : Int))) :=
  lex_of_decode_lt _ _ 0 a c hlen (b62decode?_jsB62encode a) (b62decode?_jsB62encode c) hac

theorem C6_witness :
    (10 : Nat) < 11 ∧
    jsStrLt (jsB62encode (some ((10 : Nat) : Int))) (jsB62encode (some ((11 : Nat) : Int))) :=
  ⟨by decide, C6_base62_monotonic 10 11 (by decide) (by decide)⟩

/-! ### Shared facts about the masked-id encode and extract paths -/

theorem jsNumToString_natCast (v : Nat) : jsNumToString (some (v : Int)) = natToChars v := by
  show (if (v : Int) < 0 then '-' :: natToChars (-(v : Int)).toNat
    else natToChars (v : Int).toNat) = natToChars v
  rw [if_neg (by omega), Int.toNat_natCast]

theorem regexCapture_nozone (c : Char) (t : Str) (hc : isAlnumAscii c = true)
    (ht : ∀ x ∈ t, isAlnumAscii x = true) :
    regexCapture false (c :: t) = some (c :: t) := by
  show (if false = true then _ else if isAlnumAscii c = true then
    some (c :: t.takeWhile isAlnumAscii) else regexCapture false t) = some (c :: t)
  rw [if_neg (by simp), if_pos hc, List.takeWhile_eq_self_iff.mpr ht]

theorem regexCapture_zone (zc : Char) (E : Str) (hzc : isZoneCharI zc = true)
    (hE0 : E ≠ []) (hEa : ∀ x ∈ E, isAlnumAscii x = true) :
    regexCapture true (zc :: E) = some E := by
  show (if true = true then
      if isZoneCharI zc && !(E.takeWhile isAlnumAscii).isEmpty then
        some (E.takeWhile isAlnumAscii)
      else regexCapture true E
    else _) = some E
  rw [if_pos rfl, List.takeWhile_eq_self_iff.mpr hEa,
    if_pos (by rw [hzc]; simpa using hE0)]

theorem marketplaceIdBase_eq : marketplaceIdBase = 238327 := by decide

/-- A shuffler of at most 3 alphabet characters decodes below
`62^3 = 238328`. -/
theorem shuffler_decode_le {S : Str} {m : Nat} (hlen : S.length ≤ 3)
    (hm : b62decode? S = some m) : m ≤ 238327 := by
  have hlt := b62decode?_lt hm
  have hle : 62 ^ S.length ≤ 62 ^ 3 := Nat.pow_le_pow_right (by omega) hlen
  have h3 : (62 : Nat) ^ 3 = 238328 := by norm_num
  omega

/-- The masked marketplace-id block: for `1 ≤ v ≤ maxMarketplaceId` and a
mask value `m ≤ 238327`, the encoded block has exactly 4 characters, all
alphanumeric, and decodes back to `v + marketplaceIdBase + m`. -/
theorem enc_block_spec (v m : Nat) (hv1 : 1 ≤ v) (hv2 : v ≤ maxMarketplaceId)
    (hmlt : m ≤ 238327) :
    (b62encodeNat (v + marketplaceIdBase + m)).length = 4 ∧
    (∀ x ∈ b62encodeNat (v + marketplaceIdBase + m), isAlnumAscii x = true) ∧
    b62decode? (b62encodeNat (v + marketplaceIdBase + m)) =
      some (v + marketplaceIdBase + m) := by
  have hmax := maxMarketplaceId_eq
  have hbase := marketplaceIdBase_eq
  have h3 : (62 : Nat) ^ 3 = 238328 := by norm_num
  have h4 : (62 : Nat) ^ 4 = 14776336 := by norm_num
  refine ⟨?_, ?_, b62decode?_encodeNat _⟩
  · have := b62encodeNat_length (k := 3) (n := v + marketplaceIdBase + m)
    exact b62encodeNat_length (by omega) (by omega)
  · exact List.all_eq_true.mp (b62encodeNat_all _)

/-- Success of `encodeMarketplaceId` on a canonical in-range decimal id
string and decodable shuffler. -/
theorem encodeMarketplaceId_ok (v m : Nat) (S : Str)
    (hv1 : 1 ≤ v) (hv2 : v ≤ maxMarketplaceId)
    (hm : b62decode? S = some m) :
    encodeMarketplaceId (natToChars v) S encodedMarketplaceIdStringLength =
      Except.ok (b62encodeNat (v + marketplaceIdBase + m)) := by
  have hguard : ¬ (parseIntJS (natToChars v) = none ∨ parseIntJS (natToChars v) = some 0 ∨
      ((encodedMarketplaceIdStringLength = encodedMarketplaceIdStringLength) ∧
        jsGtNat (parseIntJS (natToChars v)) maxMarketplaceId = true)) := by
    rw [parseIntJS_natToChars v]
    simp only [jsGtNat, not_or]
    refine ⟨by simp, ?_, ?_⟩
    · simp only [Option.some.injEq]
      omega
    · intro hand
      have h2 := hand.2
      simp only [decide_eq_true_eq] at h2
      omega
  unfold encodeMarketplaceId
  rw [if_neg hguard, parseIntJS_natToChars v]
  rw [show b62decodeNum S = some (m : Int) by simp [b62decodeNum, hm]]
  show Except.ok (jsB62encode (some ((v : Int) + marketplaceIdBase + m))) = _
  congr 1
  have hcast : ((v : Int) + marketplaceIdBase + m) = ((v + marketplaceIdBase + m : Nat) : Int) := by
    push_cast
    ring
  rw [hcast]
  show (if ((v + marketplaceIdBase + m : Nat) : Int) = 0 then ['0']
    else if ((v + marketplaceIdBase + m : Nat) : Int) < 0 then []
    else b62encodeNat ((v + marketplaceIdBase + m : Nat) : Int).toNat) = _
  rw [if_neg (by omega), if_neg (by omega), Int.toNat_natCast]

/-- Success of `extractEncodedMarketplaceId`, given the regex capture and
the decode values of the captured block and the shuffler. -/
theorem extractEncodedMarketplaceId_ok (encStr S zone E : Str) (v m : Nat)
    (hcap : regexCapture (!zone.isEmpty) encStr = some E)
    (hE : b62decode? E = some (v + marketplaceIdBase + m))
    (hS : b62decode? S = some m)
    (hv1 : 1 ≤ v) (hv2 : v ≤ maxMarketplaceId) :
    extractEncodedMarketplaceId encStr S zone = Except.ok (natToChars v) := by
  unfold extractEncodedMarketplaceId
  rw [hcap]
  have harr : jsAdd (b62decodeNum S) (some (marketplaceIdBase : Int)) =
      some ((m : Int) + marketplaceIdBase) := by
    simp [b62decodeNum, hS, jsAdd]
  have hsub : jsSub (b62decodeNum E) (some ((m : Int) + marketplaceIdBase)) =
      some (v : Int) := by
    simp only [b62decodeNum, hE, Option.map_some']
    show some (((v + marketplaceIdBase + m : Nat) : Int) - ((m : Int) + marketplaceIdBase)) = _
    congr 1
    push_cast
    ring
  simp only [harr, hsub, jsNumToString_natCast]
  rw [if_neg (by
    simp only [not_or]
    refine ⟨by simpa using natToChars_ne_nil v, ?_⟩
    rw [parseIntJS_natToChars v]
    simp only [jsGtNat, decide_eq_true_eq]
    omega)]

/-- C1: for every `1 ≤ v ≤ maxMarketplaceId` and every 3-character
shuffler drawn from the base-62 alphabet, encoding the decimal string of
`v` with the shuffler and then extracting it back (with `zone: ''`)
returns the decimal string of `v`. -/
theorem C1_masked_roundtrip (v : Nat) (s : Str) (hv1 : 1 ≤ v) (hv2 : v ≤ maxMarketplaceId)
    (hs3 : s.length = 3) (hsa : s.all isAlnumAscii = true) :
    ∃ e, encodeMarketplaceId (natToChars v) s encodedMarketplaceIdStringLength =
        Except.ok e ∧
      extractEncodedMarketplaceId e s [] = Except.ok (natToChars v) := by
  rcases hm : b62decode? s with _ | m
  · exact absurd (b62decode?_isSome hsa) (by simp [hm])
  · have hmle : m ≤ 238327 := shuffler_decode_le (by omega) hm
    obtain ⟨hlen, hall, hdec⟩ := enc_block_spec v m hv1 hv2 hmle
    refine ⟨_, encodeMarketplaceId_ok v m s hv1 hv2 hm, ?_⟩
    have hcap : regexCapture (!([] : Str).isEmpty) (b62encodeNat (v + marketplaceIdBase + m)) =
        some (b62encodeNat (v + marketplaceIdBase + m)) := by
      rcases hEshape : b62encodeNat (v + marketplaceIdBase + m) with _ | ⟨c, t⟩
      · rw [hEshape] at hlen
        simp at hlen
      · show regexCapture false (c :: t) = some (c :: t)
        apply regexCapture_nozone
        · exact hall c (by rw [hEshape]; exact List.mem_cons_self c t)
        · intro x hx
          exact hall x (by rw [hEshape]; exact List.mem_cons_of_mem _ hx)
    exact extractEncodedMarketplaceId_ok _ s [] _ v m hcap hdec hm hv1 hv2

theorem C1_witness :
    1 ≤ 31 ∧ 31 ≤ maxMarketplaceId ∧ ("asm".data : Str).length = 3 ∧
    ("asm".data : Str).all isAlnumAscii = true ∧
    (∃ e, encodeMarketplaceId (natToChars 31) "asm".data encodedMarketplaceIdStringLength =
        Except.ok e ∧
      extractEncodedMarketplaceId e "asm".data [] = Except.ok (natToChars 31)) :=
  ⟨by decide, by decide, by decide, by decide,
    C1_masked_roundtrip 31 "asm".data (by decide) (by decide) (by decide) (by decide)⟩

/-! ### The api-key layout: shared parse lemma for the current and legacy
generators -/

theorem alnum_ne_underscore {c : Char} (h : isAlnumAscii c = true) : c ≠ '_' := by
  intro he
  subst he
  exact absurd h (by decide)

theorem isZoneCharI_cases {c : Char} (h : isZoneCharI c = true) :
    c = 'e' ∨ c = 'E' ∨ c = 's' ∨ c = 'S' := by
  have h4 : ((c = 'e' ∨ c = 'E') ∨ c = 's') ∨ c = 'S' := by
    simpa [isZoneCharI] using h
  tauto

theorem zoneChar_alnum {c : Char} (h : isZoneCharI c = true) : isAlnumAscii c = true := by
  rcases isZoneCharI_cases h with rfl | rfl | rfl | rfl <;> decide

theorem validateKeyType_props {t t' : Str} (h : validateKeyType t = Except.ok t') :
    t' = t ∧ t ≠ [] ∧ 2 ≤ t.length ∧ t.length ≤ typeMaxLength ∧
      ∀ x ∈ t, isAlnumAscii x = true := by
  unfold validateKeyType at h
  split_ifs at h with h1 h2 h3
  cases h
  refine ⟨rfl, ?_⟩
  rcases le_or_lt t.length 2 with hle | hgt
  · have hmem : t ∈ listTypes := by
      by_contra hnm
      exact h2 ⟨hle, hnm⟩
    have ht : t = ['s', 'k'] ∨ t = ['p', 'k'] ∨ t = ['c', 'k'] := by
      simpa [listTypes] using hmem
    rcases ht with rfl | rfl | rfl <;>
      exact ⟨by decide, by decide, by decide, by decide⟩
  · have hcust : ¬ customTypeRegexTest t = false := by
      intro hf
      exact h3 ⟨hgt, hf⟩
    have hcust2 : customTypeRegexTest t = true := by
      cases hcu : customTypeRegexTest t
      · exact absurd hcu hcust
      · rfl
    have hparts : 3 ≤ t.length ∧ t.length ≤ typeMaxLength ∧ t.all isAlnumAscii = true := by
      unfold customTypeRegexTest at hcust2
      simp only [Bool.and_eq_true, decide_eq_true_eq] at hcust2
      exact ⟨hcust2.1.1, hcust2.1.2, hcust2.2⟩
    refine ⟨?_, by omega, hparts.2.1, List.all_eq_true.mp hparts.2.2⟩
    intro hnil
    rw [hnil] at hgt
    simp at hgt

theorem splitOn_sepFree (s : Str) (hs : ∀ x ∈ s, x ≠ '_') :
    List.splitOn '_' s = [s] := by
  apply List.splitOnP_eq_single
  intro x hx
  simpa using hs x hx

theorem splitOn_first (s rest : Str) (hs : ∀ x ∈ s, x ≠ '_') :
    List.splitOn '_' (s ++ '_' :: rest) = s :: List.splitOn '_' rest := by
  apply List.splitOnP_first
  · intro x hx
    simpa using hs x hx
  · simp

theorem splitOn_three (t e p2 : Str) (ht : ∀ x ∈ t, x ≠ '_') (he : ∀ x ∈ e, x ≠ '_')
    (hp : ∀ x ∈ p2, x ≠ '_') :
    List.splitOn '_' (t ++ '_' :: (e ++ '_' :: p2)) = [t, e, p2] := by
  rw [splitOn_first t _ ht, splitOn_first e _ he, splitOn_sepFree p2 hp]

theorem jsTruthy_of_ne_nil {s : Str} (h : s ≠ []) : jsTruthy s = true := by
  cases s with
  | nil => exact absurd rfl h
  | cons c t => rfl

theorem jsSliceFrom_neg3 (A B : Str) (hk : 3 ≤ B.length) :
    jsSliceFrom (A ++ B) (-3) = B.drop (B.length - 3) := by
  have hc : (-3 : Int) = -((3 : Nat) : Int) := by norm_num
  rw [hc]
  exact jsSliceFrom_neg_append A B 3 (by omega) hk

/-- Both api-key generators emit keys of the shape
`type ++ '_' ++ env ++ '_' ++ (A ++ zone ++ encodedBlock ++ B)` where the
zone character sits at index 20 of the whole key and the shuffler is the
last 3 characters of `B`; `parseKey` recovers every embedded field from
any key of that shape. -/
theorem parseKey_layout (type env A E B : Str) (zc : Char) (v m : Nat)
    (htype : validateKeyType type = Except.ok type)
    (henvne : env ≠ [])
    (henva : ∀ x ∈ env, isAlnumAscii x = true)
    (hzc : isZoneCharI zc = true)
    (hA : ∀ x ∈ A, isAlnumAscii x = true)
    (hB : ∀ x ∈ B, isAlnumAscii x = true)
    (hlen20 : type.length + 1 + env.length + 1 + A.length = 20)
    (hB3 : 3 ≤ B.length)
    (hv1 : 1 ≤ v) (hv2 : v ≤ maxMarketplaceId)
    (hm : b62decode? (B.drop (B.length - 3)) = some m)
    (hE : E = b62encodeNat (v + marketplaceIdBase + m)) :
    parseKey (type ++ '_' :: (env ++ '_' :: (A ++ zc :: (E ++ B)))) =
      ⟨some type, some env, some (natToChars v), some [asciiLower zc], true⟩ := by
  obtain ⟨-, htne, htl2, htl10, hta⟩ := validateKeyType_props htype
  have hmle : m ≤ 238327 := by
    apply shuffler_decode_le _ hm
    rw [List.length_drop]
    omega
  obtain ⟨hElen, hEall, hEdec⟩ : E.length = 4 ∧ (∀ x ∈ E, isAlnumAscii x = true) ∧
      b62decode? E = some (v + marketplaceIdBase + m) := by
    rw [hE]
    exact enc_block_spec v m hv1 hv2 hmle
  set payload := A ++ zc :: (E ++ B) with hpayload
  have hpayalnum : ∀ x ∈ payload, isAlnumAscii x = true := by
    intro x hx
    rw [hpayload] at hx
    rcases List.mem_append.mp hx with hx | hx
    · exact hA x hx
    · rcases List.mem_cons.mp hx with rfl | hx
      · exact zoneChar_alnum hzc
      · rcases List.mem_append.mp hx with hx | hx
        · exact hEall x hx
        · exact hB x hx
  set key := type ++ '_' :: (env ++ '_' :: payload) with hkey
  have hsplit : List.splitOn '_' key = [type, env, payload] := by
    rw [hkey]
    exact splitOn_three type env payload (fun x hx => alnum_ne_underscore (hta x hx))
      (fun x hx => alnum_ne_underscore (henva x hx))
      (fun x hx => alnum_ne_underscore (hpayalnum x hx))
  have hassoc : key = (type ++ '_' :: (env ++ '_' :: A)) ++ (zc :: (E ++ B)) := by
    rw [hkey, hpayload]
    simp [List.append_assoc]
  have hPlen : (type ++ '_' :: (env ++ '_' :: A)).length = 20 := by
    simp only [List.length_append, List.length_cons]
    omega
  have hcharat : jsCharAt key marketplacePartIndex = [zc] := by
    rw [hassoc, show marketplacePartIndex = (type ++ '_' :: (env ++ '_' :: A)).length from
      by rw [hPlen]; rfl]
    rw [jsCharAt_append]
    rfl
  have hemid : jsSlice key (marketplacePartIndex : Int)
      ((marketplacePartIndex : Int) + (marketplacePartLength : Nat)) = zc :: E := by
    rw [hassoc, show (marketplacePartIndex : Int) =
      ((type ++ '_' :: (env ++ '_' :: A)).length : Int) from by rw [hPlen]; rfl]
    rw [jsSlice_append]
    show zc :: (E ++ B).take 4 = zc :: E
    rw [← hElen, List.take_left]
  have hshuf : jsSliceFrom payload (-3) = B.drop (B.length - 3) := by
    rw [hpayload, show A ++ zc :: (E ++ B) = (A ++ zc :: E) ++ B from by
      simp [List.append_assoc]]
    exact jsSliceFrom_neg3 _ _ hB3
  have hextract : extractEncodedMarketplaceId (zc :: E) (B.drop (B.length - 3))
      marketplaceZone = Except.ok (natToChars v) := by
    apply extractEncodedMarketplaceId_ok (zc :: E) _ marketplaceZone E v m _ hEdec hm hv1 hv2
    show regexCapture true (zc :: E) = some E
    apply regexCapture_zone zc E hzc _ hEall
    intro h0
    rw [h0] at hElen
    simp at hElen
  simp only [parseKey]
  rw [hsplit, if_neg (show ¬ (([type, env, payload] : List Str).length ≠ 3) by simp)]
  simp only [List.getD_cons_zero, List.getD_cons_succ]
  rw [htype, hcharat, hemid, hshuf, hextract]
  simp only [ParseResult.mk.injEq]
  refine ⟨trivial, trivial, trivial, by simp, ?_⟩
  rw [jsTruthy_of_ne_nil htne, jsTruthy_of_ne_nil henvne,
    show jsTruthyOpt (some (natToChars v)) = true from jsTruthy_of_ne_nil (natToChars_ne_nil v)]
  rfl

/-- C2: api-key generate/parse round trip: for every type accepted by
`validateKeyType`, every env in `{test, live}`, every marketplace id that
is the decimal string of an integer in `[1, maxMarketplaceId]`, and every
27-character alphanumeric random payload produced by the byte source,
`parseKey (generateKey ..)` reports `hasValidFormat = true` with the
type, env and marketplace id of the generation inputs and the lowercase
zone character `'e'`. -/
theorem C2_key_roundtrip (type env mid oracle : Str) (v : Nat)
    (htype : validateKeyType type = Except.ok type)
    (henv : env = "test".data ∨ env = "live".data)
    (hv1 : 1 ≤ v) (hv2 : v ≤ maxMarketplaceId)
    (hmid : mid = natToChars v)
    (hrslen : (getRandomString ((keyLength : Int) - marketplacePartLength) []
      defaultSeparator oracle).length = 27)
    (hrsa : ∀ x ∈ getRandomString ((keyLength : Int) - marketplacePartLength) []
      defaultSeparator oracle, isAlnumAscii x = true) :
    ∃ key, generateKey type env mid marketplaceZone oracle = Except.ok key ∧
      parseKey key = ⟨some type, some env, some mid, some ['e'], true⟩ := by
  subst hmid
  obtain ⟨-, htne, htl2, htl10, hta⟩ := validateKeyType_props htype
  have hmpi : marketplacePartIndex = 20 := rfl
  have html : typeMaxLength = 10 := rfl
  set rs := getRandomString ((keyLength : Int) - marketplacePartLength) []
    defaultSeparator oracle with hrsdef
  obtain ⟨zc, hfmt, hzcI, hzclow⟩ : ∃ zc, formatMarketplaceZone env marketplaceZone = [zc] ∧
      isZoneCharI zc = true ∧ asciiLower zc = 'e' := by
    rcases henv with rfl | rfl
    · exact ⟨'e', by decide, by decide, by decide⟩
    · exact ⟨'E', by decide, by decide, by decide⟩
  have henvne : env ≠ [] := by rcases henv with rfl | rfl <;> decide
  have henvlen : env.length = 4 := by rcases henv with rfl | rfl <;> decide
  have henva : ∀ x ∈ env, isAlnumAscii x = true := by
    rcases henv with rfl | rfl <;> decide
  have hshufgen : jsSliceFrom rs (-3) = rs.drop 24 := by
    have h := jsSliceFrom_neg3 [] rs (by omega)
    simpa [hrslen] using h
  rcases hm : b62decode? (rs.drop 24) with _ | m
  · exfalso
    have hsome : (b62decode? (rs.drop 24)).isSome = true := by
      apply b62decode?_isSome
      exact List.all_eq_true.mpr fun x hx => hrsa x (List.mem_of_mem_drop hx)
    rw [hm] at hsome
    simp at hsome
  have hmle : m ≤ 238327 := by
    apply shuffler_decode_le _ hm
    rw [List.length_drop, hrslen]
  have hmidok : ¬ (natToChars v ≠ jsNumToString (parseIntJS (natToChars v))) := by
    rw [parseIntJS_natToChars, jsNumToString_natCast]
    simp
  set brkN : Nat := 14 - type.length with hbrkN
  set A := rs.take brkN with hAdef
  set B := rs.drop brkN with hBdef
  set E := b62encodeNat (v + marketplaceIdBase + m) with hEdef
  have hstake : jsSubstring type 0 (typeMaxLength : Int) = type := by
    rw [jsSubstring_take]
    exact List.take_of_length_le htl10
  refine ⟨type ++ '_' :: (env ++ '_' :: (A ++ zc :: (E ++ B))), ?_, ?_⟩
  · unfold generateKey
    rw [htype]
    dsimp only
    rw [if_neg hmidok, hstake, hshufgen,
      encodeMarketplaceId_ok v m (rs.drop 24) hv1 hv2 hm]
    dsimp only
    rw [hfmt]
    have hbrkcast : (marketplacePartIndex : Int) -
        ((type ++ ['_'] ++ env ++ ['_']).length : Int) = ((brkN : Nat) : Int) := by
      simp only [List.length_append, List.length_cons, List.length_nil, henvlen]
      push_cast
      omega
    rw [hbrkcast, jsSubstring_take, jsSubstring_drop]
    congr 1
    rw [← hAdef, ← hBdef, ← hEdef]
    simp [List.append_assoc]
  · have hBdrop : B.drop (B.length - 3) = rs.drop 24 := by
      rw [hBdef, List.length_drop, hrslen, List.drop_drop]
      congr 1
      omega
    have hlay := parseKey_layout type env A E B zc v m htype henvne henva hzcI
      (fun x hx => hrsa x (List.mem_of_mem_take (by rw [← hAdef]; exact hx)))
      (fun x hx => hrsa x (List.mem_of_mem_drop (by rw [← hBdef]; exact hx)))
      (by rw [hAdef, List.length_take, hrslen]; omega)
      (by rw [hBdef, List.length_drop, hrslen]; omega)
      hv1 hv2
      (by rw [hBdrop]; exact hm)
      hEdef
    rw [hlay, hzclow]

theorem C2_witness :
    validateKeyType "sk".data = Except.ok "sk".data ∧
    (∃ key, generateKey "sk".data "test".data (natToChars 12) marketplaceZone
        "000000000000000000000000000".data = Except.ok key ∧
      parseKey key =
        ⟨some "sk".data, some "test".data, some (natToChars 12), some ['e'], true⟩) :=
  ⟨by decide,
    C2_key_roundtrip "sk".data "test".data (natToChars 12)
      "000000000000000000000000000".data 12 (by decide) (Or.inl rfl)
      (by decide) (by decide) rfl (by decide) (by decide)⟩

/-- C4 (counterexample to the claim as stated): the legacy-layout key
`pk_test_m6DF3SOm0DcIs1atGMMPoasm` from the repository's own
`parses a shorter key (legacy)` test parses successfully, but its type
comes back as the 2-character code `pk` itself — `validateKeyType` returns
its argument unchanged — so no normalization to any longer canonical form
takes place. -/
theorem C4_counterexample :
    parseKey "pk_test_m6DF3SOm0DcIs1atGMMPoasm".data =
      ⟨some "pk".data, some "test".data, some "31".data, some "s".data, true⟩ ∧
    ("pk".data : Str).length ≤ 2 :=
  ⟨by decide, by decide⟩

/-- C4 (amended): every key produced by the previous-generation generator
(total length 32 with the `type_env_` prefix, type `sk` or `pk`, env
`test` or `live`, marketplace id the decimal string of an integer in
`[1, maxMarketplaceId]`) is parsed by the current `parseKey` with
`hasValidFormat = true` and the same marketplace id, env and (lowercased)
zone, and with the type returned verbatim — the 2-character legacy codes
are still the current built-in vocabulary, so no long-form normalization
occurs (none exists in the code). -/
theorem C4_legacy_roundtrip (type env mid oracle : Str) (v : Nat)
    (htype : type = "sk".data ∨ type = "pk".data)
    (henv : env = "test".data ∨ env = "live".data)
    (hv1 : 1 ≤ v) (hv2 : v ≤ maxMarketplaceId)
    (hmid : mid = natToChars v)
    (hrslen : (getRandomString ((Legacy.keyLength : Int) - marketplacePartLength -
      ((type ++ ['_'] ++ env ++ ['_']).length : Int)) [] defaultSeparator oracle).length = 19)
    (hrsa : ∀ x ∈ getRandomString ((Legacy.keyLength : Int) - marketplacePartLength -
      ((type ++ ['_'] ++ env ++ ['_']).length : Int)) [] defaultSeparator oracle,
      isAlnumAscii x = true) :
    ∃ key, Legacy.generateKey type env mid marketplaceZone oracle = Except.ok key ∧
      parseKey key = ⟨some type, some env, some mid, some ['e'], true⟩ := by
  subst hmid
  have htmem : ¬ type ∉ Legacy.listTypes := by
    rcases htype with rfl | rfl <;> decide
  have htvalid : validateKeyType type = Except.ok type := by
    rcases htype with rfl | rfl <;> decide
  have htlen : type.length = 2 := by rcases htype with rfl | rfl <;> decide
  set rs := getRandomString ((Legacy.keyLength : Int) - marketplacePartLength -
    ((type ++ ['_'] ++ env ++ ['_']).length : Int)) [] defaultSeparator oracle with hrsdef
  obtain ⟨zc, hfmt, hzcI, hzclow⟩ : ∃ zc, formatMarketplaceZone env marketplaceZone = [zc] ∧
      isZoneCharI zc = true ∧ asciiLower zc = 'e' := by
    rcases henv with rfl | rfl
    · exact ⟨'e', by decide, by decide, by decide⟩
    · exact ⟨'E', by decide, by decide, by decide⟩
  have henvne : env ≠ [] := by rcases henv with rfl | rfl <;> decide
  have henvlen : env.length = 4 := by rcases henv with rfl | rfl <;> decide
  have henva : ∀ x ∈ env, isAlnumAscii x = true := by
    rcases henv with rfl | rfl <;> decide
  have hshufgen : jsSliceFrom rs (-3) = rs.drop 16 := by
    have h := jsSliceFrom_neg3 [] rs (by omega)
    simpa [hrslen] using h
  rcases hm : b62decode? (rs.drop 16) with _ | m
  · exfalso
    have hsome : (b62decode? (rs.drop 16)).isSome = true := by
      apply b62decode?_isSome
      exact List.all_eq_true.mpr fun x hx => hrsa x (List.mem_of_mem_drop hx)
    rw [hm] at hsome
    simp at hsome
  have hmle : m ≤ 238327 := by
    apply shuffler_decode_le _ hm
    rw [List.length_drop, hrslen]
  have hmidok : ¬ (natToChars v ≠ jsNumToString (parseIntJS (natToChars v))) := by
    rw [parseIntJS_natToChars, jsNumToString_natCast]
    simp
  set A := rs.take 12 with hAdef
  set B := rs.drop 12 with hBdef
  set E := b62encodeNat (v + marketplaceIdBase + m) with hEdef
  refine ⟨type ++ '_' :: (env ++ '_' :: (A ++ zc :: (E ++ B))), ?_, ?_⟩
  · unfold Legacy.generateKey
    rw [if_neg htmem, if_neg hmidok]
    dsimp only
    rw [hshufgen, encodeMarketplaceId_ok v m (rs.drop 16) hv1 hv2 hm]
    dsimp only
    rw [hfmt]
    have hbrkcast : (marketplacePartIndex : Int) -
        ((type ++ ['_'] ++ env ++ ['_']).length : Int) = ((12 : Nat) : Int) := by
      simp only [List.length_append, List.length_cons, List.length_nil, henvlen, htlen]
      rfl
    rw [hbrkcast, jsSubstring_take, jsSubstring_drop]
    congr 1
    rw [← hAdef, ← hBdef, ← hEdef]
    simp [List.append_assoc]
  · have hBdrop : B.drop (B.length - 3) = rs.drop 16 := by
      rw [hBdef, List.length_drop, hrslen, List.drop_drop]
    have hlay := parseKey_layout type env A E B zc v m htvalid henvne henva hzcI
      (fun x hx => hrsa x (List.mem_of_mem_take (by rw [← hAdef]; exact hx)))
      (fun x hx => hrsa x (List.mem_of_mem_drop (by rw [← hBdef]; exact hx)))
      (by rw [hAdef, List.length_take, hrslen, htlen, henvlen]; omega)
      (by rw [hBdef, List.length_drop, hrslen]; omega)
      hv1 hv2
      (by rw [hBdrop]; exact hm)
      hEdef
    rw [hlay, hzclow]

theorem C4_witness :
    (∃ key, Legacy.generateKey "pk".data "test".data (natToChars 31) marketplaceZone
        "0000000000000000000".data = Except.ok key ∧
      parseKey key =
        ⟨some "pk".data, some "test".data, some (natToChars 31), some ['e'], true⟩) :=
  C4_legacy_roundtrip "pk".data "test".data (natToChars 31)
    "0000000000000000000".data 31 (Or.inr rfl) (Or.inl rfl)
    (by decide) (by decide) rfl (by decide) (by decide)

theorem jsB62encode_natCast {n : Nat} (hn : 0 < n) :
    jsB62encode (some (n : Int)) = b62encodeNat n := by
  show (if (n : Int) = 0 then ['0'] else if (n : Int) < 0 then []
    else b62encodeNat (n : Int).toNat) = _
  rw [if_neg (by omega), if_neg (by omega), Int.toNat_natCast]

theorem jsSubstring_take_sub3 (s : Str) :
    jsSubstring s 0 ((s.length : Int) - 3) = s.take (s.length - 3) := by
  unfold jsSubstring
  have h0 : substringIdx s.length (0 : Int) = 0 := by unfold substringIdx; omega
  have h1 : substringIdx s.length ((s.length : Int) - 3) = s.length - 3 := by
    unfold substringIdx
    omega
  rw [h0, h1]
  have h2 : max 0 (s.length - 3) = s.length - 3 := by omega
  have h3 : min 0 (s.length - 3) = 0 := by omega
  rw [h2, h3, List.drop_zero]

theorem jsSliceFrom_neg3_drop (s : Str) : jsSliceFrom s (-3) = s.drop (s.length - 3) := by
  have hc : (-3 : Int) = -((3 : Nat) : Int) := by norm_num
  rw [hc]
  exact jsSliceFrom_neg s 3 (by omega)

theorem formatMarketplaceZone_len (env : Str) :
    (formatMarketplaceZone env ['e']).length = 1 := by
  unfold formatMarketplaceZone
  split <;> rfl

/-- C7: whenever `getObjectId` passes its length guard (any prefix and
separator), with a marketplace id in `[1, maxMarketplaceId]`, a random
draw filling the remaining length, and a clock second `now` whose masked
value `now + decode(shuffler ++ '0')` lies in `[62^5, 62^6)`, the returned
object id has length exactly `objectIdLength = 24`, regardless of the
prefix length. -/
theorem C7_objectId_length ( pfx separator mid env oracle : Str) (v now m2 : Nat)
    (hv1 : 1 ≤ v) (hv2 : v ≤ maxMarketplaceId) (hmid : mid = natToChars v)
    (hguard : ¬ (3 * objectIdLength ≤ 4 *
      ((if pfx ≠ [] then pfx ++ separator else []).length + marketplacePartLength)))
    (hrclen : (getRandomString (getRandomCharsNeededInObjectId
        (if pfx ≠ [] then pfx ++ separator else [])) [] defaultSeparator oracle).length +
      (if pfx ≠ [] then pfx ++ separator else []).length = 13)
    (hrca : ∀ x ∈ getRandomString (getRandomCharsNeededInObjectId
        (if pfx ≠ [] then pfx ++ separator else [])) [] defaultSeparator oracle,
      isAlnumAscii x = true)
    (hm2 : b62decode? (jsSliceFrom (getRandomString (getRandomCharsNeededInObjectId
        (if pfx ≠ [] then pfx ++ separator else [])) [] defaultSeparator oracle) (-3) ++ ['0'])
      = some m2)
    (hts1 : 62 ^ 5 ≤ now + m2) (hts2 : now + m2 < 62 ^ 6) :
    ∃ id, getObjectId pfx separator mid env ['e'] oracle now = Except.ok id ∧
      id.length = 24 := by
  subst hmid
  set baseString := if pfx ≠ [] then pfx ++ separator else [] with hbase
  set rc := getRandomString (getRandomCharsNeededInObjectId baseString) []
    defaultSeparator oracle with hrc
  set S := jsSliceFrom rc (-3) with hS
  have hSdrop : S = rc.drop (rc.length - 3) := by
    rw [hS]
    exact jsSliceFrom_neg3_drop rc
  have hSlen : S.length = rc.length - (rc.length - 3) := by
    rw [hSdrop, List.length_drop]
  rcases hmS : b62decode? S with _ | m
  · exfalso
    have hsome : (b62decode? S).isSome = true := by
      apply b62decode?_isSome
      refine List.all_eq_true.mpr fun x hx => hrca x ?_
      rw [hSdrop] at hx
      exact List.mem_of_mem_drop hx
    rw [hmS] at hsome
    simp at hsome
  have hmle : m ≤ 238327 := shuffler_decode_le (by omega) hmS
  obtain ⟨hElen, hEall, hEdec⟩ := enc_block_spec v m hv1 hv2 hmle
  have hsec : jsB62encode (jsAdd (some (now : Int)) (b62decodeNum (S ++ ['0']))) =
      b62encodeNat (now + m2) := by
    rw [show b62decodeNum (S ++ ['0']) = some (m2 : Int) by simp [b62decodeNum, hm2]]
    show jsB62encode (some ((now : Int) + m2)) = _
    rw [show ((now : Int) + m2) = ((now + m2 : Nat) : Int) by push_cast; ring]
    exact jsB62encode_natCast (by positivity)
  have hseclen : (b62encodeNat (now + m2)).length = 6 := by
    have h := b62encodeNat_length (k := 5) hts1 (by simpa using hts2)
    simpa using h
  unfold getObjectId
  dsimp only
  rw [← hbase, if_neg hguard, ← hrc, ← hS,
    encodeMarketplaceId_ok v m S hv1 hv2 hmS]
  dsimp only
  rw [hsec]
  refine ⟨_, rfl, ?_⟩
  rw [jsSubstring_take_sub3]
  simp only [List.length_append, List.length_take, formatMarketplaceZone_len,
    hElen, hseclen, hSlen]
  omega

theorem C7_witness :
    ∃ id, getObjectId "ast".data "_".data (natToChars 1) "test".data ['e']
        "000000000".data (62 ^ 5) = Except.ok id ∧ id.length = 24 :=
  C7_objectId_length "ast".data "_".data (natToChars 1) "test".data "000000000".data
    1 (62 ^ 5) 0 (by decide) (by decide) rfl (by decide) (by decide) (by decide)
    (by decide) (by decide) (by decide)

/-- The model reproduces the extraction vectors of the repository's test
suite (`extracts marketplaceId from marketplaceId encoded and masked
string`). -/
theorem modelCheck_extract_vectors :
    extractEncodedMarketplaceId "S1123".data "123".data ['e'] = Except.ok ['1'] ∧
    extractEncodedMarketplaceId "S1a0A".data "a00".data ['e'] = Except.ok ['1', '1'] ∧
    extractEncodedMarketplaceId "szzzz".data "zzz".data ['e'] = Except.ok "14299681".data :=
  ⟨by decide, by decide, by decide⟩

/-- The model reproduces the mutated-forged-key vector and the two legacy
parse vectors of the repository's test suite. -/
theorem modelCheck_parse_vectors :
    parseKey "pk_live_iuJzTKo5wumuE1inRjmcgimx".data =
      ⟨some "pk".data, some "live".data, some "31".data, some "e".data, true⟩ ∧
    parseKey "pk_test_m6DF3SOm0DcIs1atGMMPoasm".data =
      ⟨some "pk".data, some "test".data, some "31".data, some "s".data, true⟩ ∧
    parseKey "pk_live_iuJzTKo5wumuE1imRjmcgilx".data =
      ⟨some "pk".data, some "live".data, some "31".data, some "e".data, true⟩ :=
  ⟨by decide, by decide, by decide⟩


end StelaceKeys
